import Mathlib

/-!
# Verification of the pydedupe linkage core

Shallow embedding of the blocking index (`dedupe/block.py`), the all-pairs
index (`dedupe/allpairs.py`), the multi-index comparison driver
(`dedupe/sim.py` `Indices.compare`), the `Scale` and `Field` value-similarity
wrappers (`dedupe/sim.py`), the fallback getter (`dedupe/get.py`), the
two-centroid k-means classifier (`dedupe/classification/kmeans.py`) and the
match grouping (`dedupe/recordgroups.py`), together with theorems settling
the specification claims about them.

Python floats are modelled as rationals (`ℚ`); the only transcendental
operation, `math.log10` in the k-means score, is modelled as `Real.logb 10`
applied to the rational ratio.  Python records are immutable totally ordered
values; where the source distinguishes object identity (`a is b`) from value
equality (`a == b`) a record is modelled as a pair of an artificial object id
`oid` (standing for the CPython object identity, which is not part of the
value) and a value `val` (standing for the record's contents, which drive
`==`, `<`, sorting and dict keying).
-/

namespace Pydedupe

/-- A Python record object: `oid` models the object identity consulted by
`a is b`, `val` models the record value consulted by `==`, `<`, `sort()` and
dictionary lookup.  Record values are totally ordered; `ℕ` stands for any
such value domain. -/
structure Rec where
  oid : ℕ
  val : ℕ
deriving DecidableEq, Repr

/-- Python `==` on a pair of records (a tuple of two records compares by
element value; the object ids play no part). -/
def pairEqb (p q : Rec × Rec) : Bool :=
  p.1.val = q.1.val ∧ p.2.val = q.2.val

/-- A Python dict keyed by pairs of records (the `comparisons` cache):
an insertion-ordered association list whose key lookup uses record-value
equality, as CPython dict lookup does. -/
abbrev PMap (β : Type) := List ((Rec × Rec) × β)

/-- `(a, b) in comparisons` — dict membership by value equality. -/
def pmem (m : PMap β) (p : Rec × Rec) : Bool :=
  m.any fun e => pairEqb e.1 p

/-- `comparisons[(a, b)] = v` for an absent key appends a new entry. -/
def pinsert (m : PMap β) (p : Rec × Rec) (v : β) : PMap β :=
  m ++ [(p, v)]

/-- The record ordering used by `records.sort()`: Python compares the record
values (object identity is irrelevant to `list.sort`). -/
def recLe (a b : Rec) : Prop := a.val ≤ b.val

instance : DecidableRel recLe := fun a b => Nat.decLe a.val b.val

instance : IsTotal Rec recLe := ⟨fun a b => Nat.le_total a.val b.val⟩

instance : IsTrans Rec recLe := ⟨fun _ _ _ h h' => Nat.le_trans h h'⟩

/-- `records.sort()`: CPython's stable sort by record value; a stable sort is
extensionally unique, so insertion sort by `recLe` is an exact model. -/
def recSort (records : List Rec) : List Rec :=
  records.insertionSort recLe

/-- The pair enumeration `for j in range(len(records)): for i in range(j):
(records[i], records[j])` shared by `Index._compare_self` (block.py) and
`within` (allpairs.py): each element is paired with every element before it.
`seen` is the already-passed prefix. -/
def selfPairsAux (seen : List Rec) : List Rec → List (Rec × Rec)
  | [] => []
  | b :: rest => seen.map (fun a => (a, b)) ++ selfPairsAux (seen ++ [b]) rest

def selfPairs (records : List Rec) : List (Rec × Rec) :=
  selfPairsAux [] records

/-- The body of `Index._compare_self` (block.py lines 131-140) applied to the
enumerated pairs of one bucket: skip when `a is b` (same object under several
keys), skip when `(a, b)` is already a dict key, otherwise invoke `compare`
and store the result. -/
def procSelfPairs (compare : Rec → Rec → β) (m : PMap β) :
    List (Rec × Rec) → PMap β
  | [] => m
  | (a, b) :: ps =>
      if a.oid = b.oid then procSelfPairs compare m ps
      else if pmem m (a, b) then procSelfPairs compare m ps
      else procSelfPairs compare (pinsert m (a, b) (compare a b)) ps

/-- A `block.Index`: dict from index key to the list of records inserted
under that key. -/
abbrev BIndex := List (ℕ × List Rec)

/-- `Index._compare_self` (block.py lines 125-141): for each bucket, sort the
bucket's record list in place, enumerate the `i < j` pairs and process them
against the shared `comparisons` dict.  Returns the updated dict together
with the index as it stands after the in-place sorts. -/
def blockCompareSelf (compare : Rec → Rec → β) (idx : BIndex) (m : PMap β) :
    PMap β × BIndex :=
  match idx with
  | [] => (m, [])
  | (k, recs) :: rest =>
      let s := recSort recs
      let m' := procSelfPairs compare m (selfPairs s)
      let r := blockCompareSelf compare rest m'
      (r.1, (k, s) :: r.2)

/-- The body of `within` (allpairs.py lines 29-33) and of
`Index._compare_other` (block.py lines 149-153) applied to an enumerated
pair list: skip pairs that are already dict keys, otherwise invoke the
comparator and store the result.  There is no identity check here. -/
def procAllPairs (comparator : Rec → Rec → β) (m : PMap β) :
    List (Rec × Rec) → PMap β
  | [] => m
  | p :: ps =>
      if pmem m p then procAllPairs comparator m ps
      else procAllPairs comparator (pinsert m p (comparator p.1 p.2)) ps

/-- `within(comparator, records, comparisons)` (allpairs.py lines 8-34):
sort the record list in place, then compare every earlier/later pair not
already cached.  Returns the updated dict and the sorted record list. -/
def within (comparator : Rec → Rec → β) (records : List Rec) (m : PMap β) :
    PMap β × List Rec :=
  let s := recSort records
  (procAllPairs comparator m (selfPairs s), s)

/-- The Cartesian product `for rec1 in self[key]: for rec2 in other[key]`. -/
def crossPairs (recs1 recs2 : List Rec) : List (Rec × Rec) :=
  recs1.flatMap fun a => recs2.map fun b => (a, b)

/-- Dict lookup `other[key]` on a block index. -/
def blookup (idx : BIndex) (k : ℕ) : Option (List Rec) :=
  match idx with
  | [] => none
  | (k', recs) :: rest => if k' = k then some recs else blookup rest k

/-- `Index._compare_other` (block.py lines 143-154): for every key of `self`
also present in `other`, compare the Cartesian product of the two buckets,
consulting and populating the shared dict. -/
def blockCompareOther (compare : Rec → Rec → β) (idx other : BIndex)
    (m : PMap β) : PMap β :=
  match idx with
  | [] => m
  | (k, recs) :: rest =>
      let m' :=
        match blookup other k with
        | some recs2 => procAllPairs compare m (crossPairs recs recs2)
        | none => m
      blockCompareOther compare rest other m'

/-- `between(comparator, records1, records2, comparisons)` (allpairs.py
lines 36-62). -/
def between (comparator : Rec → Rec → β) (r1 r2 : List Rec) (m : PMap β) :
    PMap β :=
  procAllPairs comparator m (crossPairs r1 r2)

/-- `Index.count()` self mode (block.py lines 82-87):
`Σ n(n-1)/2` over buckets with more than one record. -/
def blockCountSelf (idx : BIndex) : ℕ :=
  match idx with
  | [] => 0
  | (_, recs) :: rest =>
      (if recs.length > 1 then recs.length * (recs.length - 1) / 2 else 0) +
        blockCountSelf rest

/-- `Index.count(other)` cross mode (block.py lines 88-93):
`Σ n_a * n_b` over keys shared with `other`. -/
def blockCountOther (idx other : BIndex) : ℕ :=
  match idx with
  | [] => 0
  | (k, recs) :: rest =>
      (match blookup other k with
       | some recs2 => recs.length * recs2.length
       | none => 0) + blockCountOther rest other

/-- `allpairs.Index.count()` self mode (allpairs.py lines 79-83):
`N*(N+1)/2` with Python 2 integer division. -/
def allCountSelf (records : List Rec) : ℕ :=
  records.length * (records.length + 1) / 2

/-- `allpairs.Index.count(other)` cross mode (allpairs.py lines 84-85). -/
def allCountOther (records other : List Rec) : ℕ :=
  records.length * other.length

/-! ## Ordering of enumerated pairs -/

theorem sorted_recSort (l : List Rec) : List.Sorted recLe (recSort l) :=
  List.sorted_insertionSort recLe l

theorem perm_recSort (l : List Rec) : (recSort l).Perm l :=
  List.perm_insertionSort recLe l

theorem selfPairsAux_le (seen l : List Rec)
    (hsl : ∀ a ∈ seen, ∀ b ∈ l, a.val ≤ b.val)
    (hl : List.Sorted recLe l) :
    ∀ p ∈ selfPairsAux seen l, p.1.val ≤ p.2.val := by
  induction l generalizing seen with
  | nil => intro p hp; simp [selfPairsAux] at hp
  | cons b rest ih =>
      intro p hp
      simp only [selfPairsAux, List.mem_append, List.mem_map] at hp
      rcases hp with ⟨a, ha, rfl⟩ | hp
      · exact hsl a ha b (List.mem_cons_self _ _)
      · refine ih (seen ++ [b]) ?_ hl.of_cons p hp
        intro a ha c hc
        rcases List.mem_append.1 ha with ha | ha
        · exact hsl a ha c (List.mem_cons_of_mem _ hc)
        · rcases List.mem_singleton.1 ha with rfl
          exact List.rel_of_sorted_cons hl c hc

theorem selfPairs_le (l : List Rec) (hl : List.Sorted recLe l) :
    ∀ p ∈ selfPairs l, p.1.val ≤ p.2.val :=
  selfPairsAux_le [] l (by simp) hl

theorem procAllPairs_inv (P : Rec × Rec → Prop) (c : Rec → Rec → β)
    (m : PMap β) (ps : List (Rec × Rec))
    (hps : ∀ p ∈ ps, P p) (hm : ∀ e ∈ m, P e.1) :
    ∀ e ∈ procAllPairs c m ps, P e.1 := by
  induction ps generalizing m with
  | nil => exact hm
  | cons p ps ih =>
      simp only [procAllPairs]
      by_cases h : pmem m p = true
      · simp only [h, if_true]
        exact ih m (fun q hq => hps q (List.mem_cons_of_mem _ hq)) hm
      · simp only [h, if_false]
        refine ih _ (fun q hq => hps q (List.mem_cons_of_mem _ hq)) ?_
        intro e he
        rcases List.mem_append.1 he with he | he
        · exact hm e he
        · rcases List.mem_singleton.1 he with rfl
          exact hps p (List.mem_cons_self _ _)

theorem procSelfPairs_inv (c : Rec → Rec → β) (m : PMap β)
    (ps : List (Rec × Rec))
    (hps : ∀ p ∈ ps, p.1.val ≤ p.2.val)
    (hm : ∀ e ∈ m, e.1.1.val ≤ e.1.2.val ∧ e.1.1.oid ≠ e.1.2.oid) :
    ∀ e ∈ procSelfPairs c m ps,
      e.1.1.val ≤ e.1.2.val ∧ e.1.1.oid ≠ e.1.2.oid := by
  induction ps generalizing m with
  | nil => exact hm
  | cons p ps ih =>
      obtain ⟨a, b⟩ := p
      simp only [procSelfPairs]
      by_cases hid : a.oid = b.oid
      · simp only [hid, if_true]
        exact ih m (fun q hq => hps q (List.mem_cons_of_mem _ hq)) hm
      · simp only [hid, if_false]
        by_cases h : pmem m (a, b) = true
        · simp only [h, if_true]
          exact ih m (fun q hq => hps q (List.mem_cons_of_mem _ hq)) hm
        · simp only [h, if_false]
          refine ih _ (fun q hq => hps q (List.mem_cons_of_mem _ hq)) ?_
          intro e he
          rcases List.mem_append.1 he with he | he
          · exact hm e he
          · rcases List.mem_singleton.1 he with rfl
            exact ⟨hps (a, b) (List.mem_cons_self _ _), hid⟩

theorem blockCompareSelf_inv (c : Rec → Rec → β) (idx : BIndex) (m : PMap β)
    (hm : ∀ e ∈ m, e.1.1.val ≤ e.1.2.val ∧ e.1.1.oid ≠ e.1.2.oid) :
    ∀ e ∈ (blockCompareSelf c idx m).1,
      e.1.1.val ≤ e.1.2.val ∧ e.1.1.oid ≠ e.1.2.oid := by
  induction idx generalizing m with
  | nil => exact hm
  | cons kb rest ih =>
      obtain ⟨k, recs⟩ := kb
      simp only [blockCompareSelf]
      exact ih _ (procSelfPairs_inv c m _
        (selfPairs_le _ (sorted_recSort recs)) hm)

/-! ## Claim C1 -/

/-- Claim C1, as stated, is false: the AllPairs variant emits a pair of two
equal records when an equal record is inserted a second time.  This replays
the `allpairs.Index` docstring scenario (records A, B, C with A inserted
again, here with values 0, 1, 2 and a second object of value 0): the
resulting pair map contains the pair of the two value-0 records, which
violates both `a < b` and `a ≠ b`. -/
theorem c1_counterexample :
    ((⟨0, 0⟩, ⟨3, 0⟩), 0) ∈
        (within (fun _ _ => (0 : ℕ)) [⟨0, 0⟩, ⟨1, 1⟩, ⟨2, 2⟩, ⟨3, 0⟩]
          ([] : PMap ℕ)).1 ∧
      ¬ ((⟨0, 0⟩ : Rec).val < (⟨3, 0⟩ : Rec).val) ∧
      (⟨0, 0⟩ : Rec).val = (⟨3, 0⟩ : Rec).val := by
  decide

/-- Claim C1, amended: starting from a fresh cache, every pair `(a, b)` in a
self-mode pair map satisfies `a ≤ b` in the records' natural order; for the
blocking `Index` the two records of a pair are additionally never the same
object (`a is b` is skipped), but two *equal* records inserted as distinct
objects can be paired, and the AllPairs variant can pair two equal records
without any identity check. -/
theorem c1_amended (β : Type) (compare : Rec → Rec → β) (idx : BIndex)
    (records : List Rec) :
    (∀ e ∈ (blockCompareSelf compare idx ([] : PMap β)).1,
        e.1.1.val ≤ e.1.2.val ∧ e.1.1.oid ≠ e.1.2.oid) ∧
      (∀ e ∈ (within compare records ([] : PMap β)).1,
        e.1.1.val ≤ e.1.2.val) := by
  constructor
  · exact blockCompareSelf_inv compare idx [] (by simp)
  · exact procAllPairs_inv _ compare [] _
      (selfPairs_le _ (sorted_recSort records)) (by simp)

theorem c1_amended_witness :
    (((⟨1, 4⟩, ⟨0, 5⟩), 7) ∈
        (blockCompareSelf (fun _ _ => (7 : ℕ)) [(0, [⟨0, 5⟩, ⟨1, 4⟩])]
          ([] : PMap ℕ)).1) ∧
      ((⟨1, 4⟩ : Rec).val ≤ (⟨0, 5⟩ : Rec).val ∧
        (⟨1, 4⟩ : Rec).oid ≠ (⟨0, 5⟩ : Rec).oid) :=
  ⟨by decide,
    (c1_amended ℕ (fun _ _ => 7) [(0, [⟨0, 5⟩, ⟨1, 4⟩])] []).1
      ((⟨1, 4⟩, ⟨0, 5⟩), 7) (by decide)⟩

/-! ## Claim C2: traced comparison

To speak about *invocations* of the similarity function, the comparison
loops are replayed with an instrumentation that records, in order, each pair
at which the similarity function is actually called (the line
`comparisons[(a, b)] = compare(a, b)`).  The map component computes exactly
as in the plain embedding above. -/

/-- `procSelfPairs` with an invocation trace. -/
def procSelfPairsT (compare : Rec → Rec → β) (m : PMap β) :
    List (Rec × Rec) → PMap β × List (Rec × Rec)
  | [] => (m, [])
  | (a, b) :: ps =>
      if a.oid = b.oid then procSelfPairsT compare m ps
      else if pmem m (a, b) then procSelfPairsT compare m ps
      else
        let r := procSelfPairsT compare (pinsert m (a, b) (compare a b)) ps
        (r.1, (a, b) :: r.2)

/-- `procAllPairs` with an invocation trace. -/
def procAllPairsT (comparator : Rec → Rec → β) (m : PMap β) :
    List (Rec × Rec) → PMap β × List (Rec × Rec)
  | [] => (m, [])
  | p :: ps =>
      if pmem m p then procAllPairsT comparator m ps
      else
        let r := procAllPairsT comparator (pinsert m p (comparator p.1 p.2)) ps
        (r.1, p :: r.2)

/-- `Index._compare_self` with an invocation trace (the returned index is
not needed here). -/
def blockCompareSelfT (compare : Rec → Rec → β) (idx : BIndex) (m : PMap β) :
    PMap β × List (Rec × Rec) :=
  match idx with
  | [] => (m, [])
  | (_, recs) :: rest =>
      let r1 := procSelfPairsT compare m (selfPairs (recSort recs))
      let r2 := blockCompareSelfT compare rest r1.1
      (r2.1, r1.2 ++ r2.2)

/-- `within` with an invocation trace. -/
def withinT (comparator : Rec → Rec → β) (records : List Rec) (m : PMap β) :
    PMap β × List (Rec × Rec) :=
  procAllPairsT comparator m (selfPairs (recSort records))

/-- A constituent of an `Indices` strategy: either a blocking `block.Index`
or an `allpairs.Index` (sim.py accepts any index class with a `compare`
method). -/
inductive AnyIdx where
  | block (idx : BIndex)
  | allp (records : List Rec)

/-- Self-mode `Indices.compare` (sim.py lines 375-378): run every
constituent index's `compare` against the one shared `comparisons` dict,
with the invocation trace accumulated across constituents. -/
def indicesCompareT (simfunc : Rec → Rec → β) (idxs : List AnyIdx)
    (m : PMap β) : PMap β × List (Rec × Rec) :=
  match idxs with
  | [] => (m, [])
  | i :: rest =>
      let r1 :=
        match i with
        | .block idx => blockCompareSelfT simfunc idx m
        | .allp records => withinT simfunc records m
      let r2 := indicesCompareT simfunc rest r1.1
      (r2.1, r1.2 ++ r2.2)

/-- The value content of a record pair — what Python `==` on the pair, and
hence dict lookup, consults. -/
def pvals (p : Rec × Rec) : ℕ × ℕ := (p.1.val, p.2.val)

theorem pmem_congr (m : PMap β) (p q : Rec × Rec) (h : pvals p = pvals q) :
    pmem m p = pmem m q := by
  unfold pvals at h
  simp only [Prod.mk.injEq] at h
  unfold pmem pairEqb
  congr 1
  funext e
  rw [h.1, h.2]

theorem pmem_pinsert (m : PMap β) (p : Rec × Rec) (v : β) (q : Rec × Rec) :
    pmem (pinsert m p v) q = (pmem m q || pairEqb p q) := by
  unfold pmem pinsert
  simp [List.any_append]

/-- The well-behavedness of one comparison pass over a shared cache:
the invocation trace has no two entries equal as value pairs, every traced
pair was absent from the incoming cache and is present in the outgoing
cache, and the outgoing cache retains every incoming key. -/
def TraceOK (m : PMap β) (r : PMap β × List (Rec × Rec)) : Prop :=
  (r.2.map pvals).Nodup ∧
    (∀ p ∈ r.2, pmem m p = false) ∧
    (∀ p ∈ r.2, pmem r.1 p = true) ∧
    (∀ q, pmem m q = true → pmem r.1 q = true)

theorem traceOK_comp (m : PMap β) (r1 r2 : PMap β × List (Rec × Rec))
    (h1 : TraceOK m r1) (h2 : TraceOK r1.1 r2) :
    TraceOK m (r2.1, r1.2 ++ r2.2) := by
  obtain ⟨n1, a1, i1, g1⟩ := h1
  obtain ⟨n2, a2, i2, g2⟩ := h2
  refine ⟨?_, ?_, ?_, fun q hq => g2 q (g1 q hq)⟩
  · rw [List.map_append]
    refine List.Nodup.append n1 n2 ?_
    intro x hx1 hx2
    rcases List.mem_map.1 hx1 with ⟨p, hp, rfl⟩
    rcases List.mem_map.1 hx2 with ⟨p', hp', hpv⟩
    have := a2 p' hp'
    rw [pmem_congr r1.1 p' p hpv, i1 p hp] at this
    exact absurd this (by simp)
  · intro p hp
    rcases List.mem_append.1 hp with hp | hp
    · exact a1 p hp
    · have h := a2 p hp
      by_contra hc
      have : pmem m p = true := by
        revert hc
        cases pmem m p <;> simp
      rw [g1 p this] at h
      exact absurd h (by simp)
  · intro p hp
    rcases List.mem_append.1 hp with hp | hp
    · exact g2 p (i1 p hp)
    · exact i2 p hp

theorem traceOK_procAllPairsT (c : Rec → Rec → β) (m : PMap β)
    (ps : List (Rec × Rec)) : TraceOK m (procAllPairsT c m ps) := by
  induction ps generalizing m with
  | nil => exact ⟨List.nodup_nil, by simp [procAllPairsT], by simp [procAllPairsT], fun q h => h⟩
  | cons p ps ih =>
      simp only [procAllPairsT]
      by_cases h : pmem m p = true
      · simp only [h, if_true]
        exact ih m
      · have hfalse : pmem m p = false := by
          revert h; cases pmem m p <;> simp
        simp only [hfalse, Bool.false_eq_true, if_false]
        obtain ⟨n1, a1, i1, g1⟩ := ih (pinsert m p (c p.1 p.2))
        refine ⟨?_, ?_, ?_, ?_⟩
        · refine List.Nodup.cons ?_ n1
          intro hx
          rcases List.mem_map.1 hx with ⟨p', hp', hpv⟩
          have := a1 p' hp'
          rw [pmem_congr _ p' p hpv, pmem_pinsert] at this
          simp [pairEqb] at this
        · intro p' hp'
          rcases List.mem_cons.1 hp' with rfl | hp'
          · exact hfalse
          · have := a1 _ hp'
            rw [pmem_pinsert] at this
            exact (Bool.or_eq_false_iff.1 this).1
        · intro p' hp'
          rcases List.mem_cons.1 hp' with rfl | hp'
          · exact g1 _ (by rw [pmem_pinsert]; simp [pairEqb])
          · exact i1 _ hp'
        · intro q hq
          exact g1 q (by rw [pmem_pinsert, hq]; rfl)

theorem traceOK_procSelfPairsT (c : Rec → Rec → β) (m : PMap β)
    (ps : List (Rec × Rec)) : TraceOK m (procSelfPairsT c m ps) := by
  induction ps generalizing m with
  | nil => exact ⟨List.nodup_nil, by simp [procSelfPairsT], by simp [procSelfPairsT], fun q h => h⟩
  | cons p ps ih =>
      obtain ⟨a, b⟩ := p
      simp only [procSelfPairsT]
      by_cases hid : a.oid = b.oid
      · simp only [hid, if_true]
        exact ih m
      · simp only [hid, if_false]
        by_cases h : pmem m (a, b) = true
        · simp only [h, if_true]
          exact ih m
        · have hfalse : pmem m (a, b) = false := by
            revert h; cases pmem m (a, b) <;> simp
          simp only [hfalse, Bool.false_eq_true, if_false]
          obtain ⟨n1, a1, i1, g1⟩ := ih (pinsert m (a, b) (c a b))
          refine ⟨?_, ?_, ?_, ?_⟩
          · refine List.Nodup.cons ?_ n1
            intro hx
            rcases List.mem_map.1 hx with ⟨p', hp', hpv⟩
            have := a1 p' hp'
            rw [pmem_congr _ p' (a, b) hpv, pmem_pinsert] at this
            simp [pairEqb] at this
          · intro p' hp'
            rcases List.mem_cons.1 hp' with rfl | hp'
            · exact hfalse
            · have := a1 p' hp'
              rw [pmem_pinsert] at this
              exact (Bool.or_eq_false_iff.1 this).1
          · intro p' hp'
            rcases List.mem_cons.1 hp' with rfl | hp'
            · exact g1 _ (by rw [pmem_pinsert]; simp [pairEqb])
            · exact i1 _ hp'
          · intro q hq
            exact g1 q (by rw [pmem_pinsert, hq]; rfl)

theorem traceOK_blockCompareSelfT (c : Rec → Rec → β) (idx : BIndex)
    (m : PMap β) : TraceOK m (blockCompareSelfT c idx m) := by
  induction idx generalizing m with
  | nil => exact ⟨List.nodup_nil, by simp [blockCompareSelfT], by simp [blockCompareSelfT], fun q h => h⟩
  | cons kb rest ih =>
      obtain ⟨k, recs⟩ := kb
      exact traceOK_comp m _ _ (traceOK_procSelfPairsT c m _) (ih _)

theorem traceOK_indicesCompareT (c : Rec → Rec → β) (idxs : List AnyIdx)
    (m : PMap β) : TraceOK m (indicesCompareT c idxs m) := by
  induction idxs generalizing m with
  | nil => exact ⟨List.nodup_nil, by simp [indicesCompareT], by simp [indicesCompareT], fun q h => h⟩
  | cons i rest ih =>
      match i with
      | .block idx =>
          exact traceOK_comp m _ _ (traceOK_blockCompareSelfT c idx m) (ih _)
      | .allp records =>
          exact traceOK_comp m _ _ (traceOK_procAllPairsT c m _) (ih _)

/-! ### Traced pairs are canonically ordered -/

theorem procSelfPairsT_trace_sub (c : Rec → Rec → β) (m : PMap β)
    (ps : List (Rec × Rec)) :
    ∀ p ∈ (procSelfPairsT c m ps).2, p ∈ ps := by
  induction ps generalizing m with
  | nil => simp [procSelfPairsT]
  | cons p ps ih =>
      obtain ⟨a, b⟩ := p
      simp only [procSelfPairsT]
      by_cases hid : a.oid = b.oid
      · simp only [hid, if_true]
        exact fun p hp => List.mem_cons_of_mem _ (ih m p hp)
      · simp only [hid, if_false]
        by_cases h : pmem m (a, b) = true
        · simp only [h, if_true]
          exact fun p hp => List.mem_cons_of_mem _ (ih m p hp)
        · have hfalse : pmem m (a, b) = false := by
            revert h; cases pmem m (a, b) <;> simp
          simp only [hfalse, Bool.false_eq_true, if_false]
          intro p hp
          rcases List.mem_cons.1 hp with rfl | hp
          · exact List.mem_cons_self _ _
          · exact List.mem_cons_of_mem _ (ih _ p hp)

theorem procAllPairsT_trace_sub (c : Rec → Rec → β) (m : PMap β)
    (ps : List (Rec × Rec)) :
    ∀ p ∈ (procAllPairsT c m ps).2, p ∈ ps := by
  induction ps generalizing m with
  | nil => simp [procAllPairsT]
  | cons p ps ih =>
      simp only [procAllPairsT]
      by_cases h : pmem m p = true
      · simp only [h, if_true]
        exact fun p' hp => List.mem_cons_of_mem _ (ih m p' hp)
      · have hfalse : pmem m p = false := by
          revert h; cases pmem m p <;> simp
        simp only [hfalse, Bool.false_eq_true, if_false]
        intro p' hp
        rcases List.mem_cons.1 hp with rfl | hp
        · exact List.mem_cons_self _ _
        · exact List.mem_cons_of_mem _ (ih _ p' hp)

theorem blockCompareSelfT_trace_le (c : Rec → Rec → β) (idx : BIndex)
    (m : PMap β) :
    ∀ p ∈ (blockCompareSelfT c idx m).2, p.1.val ≤ p.2.val := by
  induction idx generalizing m with
  | nil => simp [blockCompareSelfT]
  | cons kb rest ih =>
      obtain ⟨k, recs⟩ := kb
      intro p hp
      simp only [blockCompareSelfT] at hp
      rcases List.mem_append.1 hp with hp | hp
      · exact selfPairs_le _ (sorted_recSort recs) p
          (procSelfPairsT_trace_sub c m _ p hp)
      · exact ih _ p hp

theorem indicesCompareT_trace_le (c : Rec → Rec → β) (idxs : List AnyIdx)
    (m : PMap β) :
    ∀ p ∈ (indicesCompareT c idxs m).2, p.1.val ≤ p.2.val := by
  induction idxs generalizing m with
  | nil => simp [indicesCompareT]
  | cons i rest ih =>
      intro p hp
      match i with
      | .block idx =>
          simp only [indicesCompareT] at hp
          rcases List.mem_append.1 hp with hp | hp
          · exact blockCompareSelfT_trace_le c idx m p hp
          · exact ih _ p hp
      | .allp records =>
          simp only [indicesCompareT] at hp
          rcases List.mem_append.1 hp with hp | hp
          · exact selfPairs_le _ (sorted_recSort records) p
              (procAllPairsT_trace_sub c m _ p hp)
          · exact ih _ p hp

/-- The unordered value pair compared: the two record values in
nondecreasing order. -/
def canonVals (p : Rec × Rec) : ℕ × ℕ :=
  if p.1.val ≤ p.2.val then (p.1.val, p.2.val) else (p.2.val, p.1.val)

/-- Claim C2: for every collection of constituent indexes (blocking or
all-pairs, in any mix and number) and every similarity function, self-mode
`Indices.compare` invokes the similarity function at most once per unordered
pair of record values: the shared pair-keyed cache makes the invocation
trace free of repeated unordered pairs, across constituent indexes and
across the keys of each index. -/
theorem c2_compare_once (β : Type) (simfunc : Rec → Rec → β)
    (idxs : List AnyIdx) :
    (((indicesCompareT simfunc idxs ([] : PMap β)).2).map canonVals).Nodup := by
  have hle := indicesCompareT_trace_le simfunc idxs []
  have hnd := (traceOK_indicesCompareT simfunc idxs ([] : PMap β)).1
  have : ((indicesCompareT simfunc idxs ([] : PMap β)).2).map canonVals =
      ((indicesCompareT simfunc idxs ([] : PMap β)).2).map pvals := by
    refine List.map_congr_left ?_
    intro p hp
    unfold canonVals pvals
    rw [if_pos (hle p hp)]
  rw [this]
  exact hnd

/-! ## Claim C8: counts bound the number of produced pairs -/

theorem procSelfPairs_length (c : Rec → Rec → β) (m : PMap β)
    (ps : List (Rec × Rec)) :
    (procSelfPairs c m ps).length ≤ m.length + ps.length := by
  induction ps generalizing m with
  | nil => simp [procSelfPairs]
  | cons p ps ih =>
      obtain ⟨a, b⟩ := p
      simp only [procSelfPairs, List.length_cons]
      by_cases hid : a.oid = b.oid
      · simp only [hid, if_true]
        exact le_trans (ih m) (by omega)
      · simp only [hid, if_false]
        by_cases h : pmem m (a, b) = true
        · simp only [h, if_true]
          exact le_trans (ih m) (by omega)
        · have hfalse : pmem m (a, b) = false := by
            revert h; cases pmem m (a, b) <;> simp
          simp only [hfalse, Bool.false_eq_true, if_false]
          refine le_trans (ih _) ?_
          simp only [pinsert, List.length_append, List.length_cons,
            List.length_nil]
          omega

theorem procAllPairs_length (c : Rec → Rec → β) (m : PMap β)
    (ps : List (Rec × Rec)) :
    (procAllPairs c m ps).length ≤ m.length + ps.length := by
  induction ps generalizing m with
  | nil => simp [procAllPairs]
  | cons p ps ih =>
      simp only [procAllPairs, List.length_cons]
      by_cases h : pmem m p = true
      · simp only [h, if_true]
        exact le_trans (ih m) (by omega)
      · have hfalse : pmem m p = false := by
          revert h; cases pmem m p <;> simp
        simp only [hfalse, Bool.false_eq_true, if_false]
        refine le_trans (ih _) ?_
        simp only [pinsert, List.length_append, List.length_cons,
          List.length_nil]
        omega

theorem selfPairsAux_length (seen l : List Rec) :
    2 * (selfPairsAux seen l).length + l.length =
      2 * seen.length * l.length + l.length * l.length := by
  induction l generalizing seen with
  | nil => simp [selfPairsAux]
  | cons b rest ih =>
      simp only [selfPairsAux, List.length_append, List.length_map,
        List.length_cons]
      have h := ih (seen ++ [b])
      simp only [List.length_append, List.length_cons, List.length_nil] at h
      calc 2 * (seen.length + (selfPairsAux (seen ++ [b]) rest).length) +
            (rest.length + 1)
          = (2 * (selfPairsAux (seen ++ [b]) rest).length + rest.length) +
            2 * seen.length + 1 := by ring
        _ = (2 * (seen.length + 1) * rest.length + rest.length * rest.length) +
            2 * seen.length + 1 := by rw [h]
        _ = 2 * seen.length * (rest.length + 1) +
            (rest.length + 1) * (rest.length + 1) := by ring

theorem selfPairs_length (l : List Rec) :
    (selfPairs l).length = l.length * (l.length - 1) / 2 := by
  unfold selfPairs
  have h := selfPairsAux_length [] l
  simp only [List.length_nil, Nat.mul_zero, Nat.zero_mul, Nat.zero_add] at h
  have h2 : l.length * (l.length - 1) = l.length * l.length - l.length := by
    rw [← Nat.pred_eq_sub_one, Nat.mul_pred]
  have h3 : 2 * (selfPairsAux [] l).length = l.length * (l.length - 1) := by
    omega
  omega

theorem crossPairs_length (r1 r2 : List Rec) :
    (crossPairs r1 r2).length = r1.length * r2.length := by
  induction r1 with
  | nil => simp [crossPairs]
  | cons a r1 ih =>
      simp only [crossPairs, List.flatMap_cons, List.length_append,
        List.length_map, List.length_cons]
      simp only [crossPairs] at ih
      rw [ih]
      ring

theorem blockCompareSelf_length (c : Rec → Rec → β) (idx : BIndex)
    (m : PMap β) :
    (blockCompareSelf c idx m).1.length ≤ m.length + blockCountSelf idx := by
  induction idx generalizing m with
  | nil => simp [blockCompareSelf, blockCountSelf]
  | cons kb rest ih =>
      obtain ⟨k, recs⟩ := kb
      simp only [blockCompareSelf, blockCountSelf]
      refine le_trans (ih _) ?_
      have hp := procSelfPairs_length c m (selfPairs (recSort recs))
      rw [selfPairs_length] at hp
      simp only [recSort] at hp
      rw [List.length_insertionSort] at hp
      have hguard : (if recs.length > 1 then
          recs.length * (recs.length - 1) / 2 else 0) =
          recs.length * (recs.length - 1) / 2 := by
        by_cases hg : recs.length > 1
        · rw [if_pos hg]
        · rw [if_neg hg]
          have : recs.length = 0 ∨ recs.length = 1 := by omega
          rcases this with h0 | h1
          · rw [h0]
          · rw [h1]
      simp only [recSort]
      omega

theorem blockCompareOther_length (c : Rec → Rec → β) (idx other : BIndex)
    (m : PMap β) :
    (blockCompareOther c idx other m).length ≤
      m.length + blockCountOther idx other := by
  induction idx generalizing m with
  | nil => simp [blockCompareOther, blockCountOther]
  | cons kb rest ih =>
      obtain ⟨k, recs⟩ := kb
      simp only [blockCompareOther, blockCountOther]
      cases hb : blookup other k with
      | none =>
          simp only [hb]
          refine le_trans (ih _) ?_
          omega
      | some recs2 =>
          simp only [hb]
          refine le_trans (ih _) ?_
          have hp := procAllPairs_length c m (crossPairs recs recs2)
          rw [crossPairs_length] at hp
          generalize recs.length * recs2.length = nb at hp ⊢
          omega

/-- Claim C8: in both modes and for both index variants, `count` is an upper
bound on the number of distinct pairs in the pair map produced by `compare`
from a fresh cache: the blocking index's self count `Σ n(n-1)/2` over
buckets with `n ≥ 2` and cross count `Σ n_a * n_b` over shared keys, and the
all-pairs index's self count `N(N+1)/2` and cross count `N_1 * N_2`, each
dominate the corresponding pair-map size. -/
theorem c8_count_bound (β : Type) (c : Rec → Rec → β) (idx other : BIndex)
    (records r1 r2 : List Rec) :
    ((blockCompareSelf c idx ([] : PMap β)).1.length ≤ blockCountSelf idx) ∧
      ((blockCompareOther c idx other ([] : PMap β)).length ≤
        blockCountOther idx other) ∧
      ((within c records ([] : PMap β)).1.length ≤ allCountSelf records) ∧
      ((between c r1 r2 ([] : PMap β)).length ≤ allCountOther r1 r2) := by
  refine ⟨?_, ?_, ?_, ?_⟩
  · simpa using blockCompareSelf_length c idx []
  · simpa using blockCompareOther_length c idx other []
  · have hp := procAllPairs_length c ([] : PMap β)
      (selfPairs (recSort records))
    rw [selfPairs_length] at hp
    simp only [recSort] at hp
    rw [List.length_insertionSort] at hp
    simp only [within, allCountSelf, recSort]
    refine le_trans hp ?_
    simp only [List.length_nil, Nat.zero_add]
    exact Nat.div_le_div_right (Nat.mul_le_mul_left _ (by omega))
  · have hp := procAllPairs_length c ([] : PMap β) (crossPairs r1 r2)
    rw [crossPairs_length] at hp
    simpa [between, allCountOther] using hp

/-! ## Claim C10 -/

/-- The index returned by `blockCompareSelf` is the input index with every
bucket list replaced by its in-place sorted version. -/
theorem blockCompareSelf_idx (c : Rec → Rec → β) (idx : BIndex) (m : PMap β) :
    (blockCompareSelf c idx m).2 =
      idx.map (fun e => (e.1, recSort e.2)) := by
  induction idx generalizing m with
  | nil => rfl
  | cons kb rest ih =>
      obtain ⟨k, recs⟩ := kb
      simp only [blockCompareSelf, List.map_cons, List.cons.injEq]
      exact ⟨by simp, ih _⟩

/-- Claim C10: self-mode compare on a blocking Index sorts each bucket in
place and otherwise leaves the index unchanged — the key sequence is
identical, and each key's bucket afterwards is a permutation of its previous
contents, arranged in sorted order. -/
theorem c10_frame (β : Type) (c : Rec → Rec → β) (idx : BIndex) (m : PMap β) :
    ((blockCompareSelf c idx m).2.map Prod.fst = idx.map Prod.fst) ∧
      (∀ e ∈ (blockCompareSelf c idx m).2.zip idx,
        e.1.1 = e.2.1 ∧ e.1.2.Perm e.2.2 ∧ List.Sorted recLe e.1.2) := by
  rw [blockCompareSelf_idx]
  constructor
  · simp
  · intro e he
    have hz : ∀ l : List (ℕ × List Rec),
        (l.map (fun x => (x.1, recSort x.2))).zip l =
          l.map (fun x => ((x.1, recSort x.2), x)) := by
      intro l
      induction l with
      | nil => rfl
      | cons x xs ih => simp [ih]
    rw [hz] at he
    rcases List.mem_map.1 he with ⟨x, _, rfl⟩
    exact ⟨rfl, perm_recSort x.2, sorted_recSort x.2⟩

theorem c10_frame_witness :
    (0 : ℕ) = 0 ∧
      List.Perm [(⟨1, 1⟩ : Rec), ⟨0, 2⟩] [⟨0, 2⟩, ⟨1, 1⟩] ∧
      List.Sorted recLe [(⟨1, 1⟩ : Rec), ⟨0, 2⟩] :=
  (c10_frame ℕ (fun _ _ => 3) [(0, [⟨0, 2⟩, ⟨1, 1⟩])] []).2
    (((0 : ℕ), [(⟨1, 1⟩ : Rec), ⟨0, 2⟩]), ((0 : ℕ), [(⟨0, 2⟩ : Rec), ⟨1, 1⟩]))
    (by decide)

/-! ## Scale (sim.py lines 93-119) — claim C4 -/

/-- The state of a constructed `Scale` object. -/
structure ScaleCfg where
  low : ℚ
  high : ℚ
  rmax : ℚ
deriving DecidableEq, Repr

/-- `Scale.__init__` (sim.py lines 93-102): raises `ValueError` (modelled as
`none`) unless `0.0 <= low < high`. -/
def scaleInit (low high rmax : ℚ) : Option ScaleCfg :=
  if 0 ≤ low ∧ low < high then some ⟨low, high, rmax⟩ else none

/-- `Scale.scale` (sim.py lines 104-110): values at or below `low` clip to
0.0, values at or above `high` clip to 1.0 (the literal `1.0`, not
`self.rmax`), values strictly between interpolate to
`rmax * (value - low) / (high - low)`. -/
def scaleValue (cfg : ScaleCfg) (value : ℚ) : ℚ :=
  if value ≤ cfg.low then 0
  else if value ≥ cfg.high then 1
  else cfg.rmax * (value - cfg.low) / (cfg.high - cfg.low)

/-- `Scale.__call__` (sim.py lines 112-119): if a `test` is configured and
either argument fails it, return the missing sentinel (`none`); if the inner
similarity returns `None`, return the missing sentinel; otherwise scale the
raw similarity. -/
def scaleCall {V : Type} (cfg : ScaleCfg) (test : Option (V → Bool))
    (similarity : V → V → Option ℚ) (a b : V) : Option ℚ :=
  match test with
  | some t =>
      if t a && t b then
        match similarity a b with
        | none => none
        | some v => some (scaleValue cfg v)
      else none
  | none =>
      match similarity a b with
      | none => none
      | some v => some (scaleValue cfg v)

/-- Claim C4 evaluated at the failing input: the constructor accepts
`low = 0 < high = 1/2` with `rmax = 1/4`, but a raw similarity of `3/4 ≥
high` is clipped to `1.0` — not to `rmax = 1/4` as the claim (and the
class's own docstring, which says the result range is `0.0` to `rmax`)
requires. -/
theorem c4_scale_clips_high_to_one :
    scaleInit 0 (1/2) (1/4) = some ⟨0, 1/2, 1/4⟩ ∧
      scaleValue ⟨0, 1/2, 1/4⟩ (3/4) = 1 ∧ (1 : ℚ) ≠ 1/4 := by
  refine ⟨by norm_num [scaleInit], by norm_num [scaleValue], by norm_num⟩

/-! ## Field (sim.py lines 150-166) — claim C7 -/

/-- `Field.__call__` (sim.py lines 159-166): apply the two getters; only a
Python `None` from a getter (modelled as `Option.none`) short-circuits to
the missing result — any other value, the empty string included, is passed
to the encoders and compared. -/
def fieldCall (compare : W → W → γ) (field1 : R → Option V) (encode1 : V → W)
    (field2 : R → Option V) (encode2 : V → W) (record1 record2 : R) :
    Option γ :=
  match field1 record1, field2 record2 with
  | some v1, some v2 => some (compare (encode1 v1) (encode2 v2))
  | _, _ => none

/-- Claim C7, as stated, is false: a getter yielding the empty string does
not produce the missing sentinel — the empty strings are encoded and
compared, and the comparison result is returned. -/
theorem c7_counterexample :
    fieldCall (fun _ _ : String => (1 : ℚ)) (fun _ : Unit => some "") id
        (fun _ : Unit => some "") id () () = some 1 ∧
      some (1 : ℚ) ≠ (none : Option ℚ) :=
  ⟨rfl, by simp⟩

/-- Claim C7, amended: `Field` returns
`compare(encode1(get1(r1)), encode2(get2(r2)))`, and returns the missing
sentinel exactly when either getter yields `None`; empty values such as the
empty string are not treated as missing. -/
theorem c7_amended (R V W γ : Type) (compare : W → W → γ)
    (field1 : R → Option V) (encode1 : V → W) (field2 : R → Option V)
    (encode2 : V → W) (r1 r2 : R) :
    (fieldCall compare field1 encode1 field2 encode2 r1 r2 = none ↔
        field1 r1 = none ∨ field2 r2 = none) ∧
      (∀ v1 v2, field1 r1 = some v1 → field2 r2 = some v2 →
        fieldCall compare field1 encode1 field2 encode2 r1 r2 =
          some (compare (encode1 v1) (encode2 v2))) := by
  constructor
  · unfold fieldCall
    cases h1 : field1 r1 <;> cases h2 : field2 r2 <;> simp
  · intro v1 v2 h1 h2
    unfold fieldCall
    rw [h1, h2]

theorem c7_amended_witness :
    fieldCall (fun x y : ℕ => x + y) (fun _ : Unit => some 2) (fun v => v + 1)
        (fun _ : Unit => some 3) (fun v => v * 2) () () = some 9 :=
  (c7_amended Unit ℕ ℕ ℕ (fun x y => x + y) (fun _ => some 2) (fun v => v + 1)
    (fun _ => some 3) (fun v => v * 2) () ()).2 2 3 rfl rfl

/-! ## Fallback getter (get.py lines 64-78) — claim C6 -/

/-- Outcome of evaluating a piece of Python code: a value, or an uncaught
`AttributeError` / `NameError`. -/
inductive PyRes (α : Type) where
  | ok (a : α)
  | attrError
  | nameError
deriving DecidableEq, Repr

/-- The evaluation of the expression `getany(row, field)` inside
`get.fallback`'s inner `getfield` (get.py line 70): the name `row` is not
bound anywhere — the function's parameter is `record` and get.py has no
global `row` — so evaluating the expression raises `NameError` before
`getany` is ever entered. -/
def getanyRow (F V : Type) (field : F) : PyRes V := .nameError

/-- The getter built by `get.fallback(fields, test, default)` (get.py lines
64-78), with its exact control flow: an `AttributeError` from the lookup is
passed over (`except AttributeError: pass`, next field); a `NameError`
propagates (it is not caught); a looked-up value passing `test` is returned;
a looked-up value failing `test` reaches the `else: break` clause, which
abandons the remaining fields and returns `default`.  An empty field list
also returns `default`. -/
def fallbackGetfield (test : V → Bool) (default : V) (record : R) :
    List F → PyRes V
  | [] => .ok default
  | f :: rest =>
      match getanyRow F V f with
      | .nameError => .nameError
      | .attrError => fallbackGetfield test default record rest
      | .ok v => if test v then .ok v else .ok default

/-- Claim C6 evaluated at the failing input: with a single field spec and
the default truthiness test, the built getter applied to a record raises
`NameError` (the unbound name `row`) instead of returning the field's
value — it fails on every record and non-empty spec list. -/
theorem c6_fallback_raises :
    fallbackGetfield (fun _ : ℕ => true) 7 (0 : ℕ) [(0 : ℕ)] =
        PyRes.nameError ∧
      (PyRes.nameError : PyRes ℕ) ≠ PyRes.ok 7 :=
  ⟨rfl, by simp⟩

/-! ## Two-centroid k-means classifier (classification/kmeans.py) —
claims C3 and C5 -/

/-- A similarity vector: one entry per component, `none` for the Python
`None` of a failed comparison (also the type of a centroid, whose components
can become `None` through `safe_div`). -/
abbrev Vec := List (Option ℚ)

/-- `x[i]` on a similarity vector. -/
def getComp (v : Vec) (i : ℕ) : Option ℚ := (v.get? i).join

/-- `safe_div` (kmeans.py line 80): `n/d` when the count is positive,
`None` otherwise. -/
def safeDiv (n : ℚ) (d : ℕ) : Option ℚ :=
  if 0 < d then some (n / (d : ℚ)) else none

/-- Initial match-centroid component (kmeans.py lines 83-84): the maximum of
the non-`None` values of component `i` across all vectors.  `none` marks the
input on which Python's `max()` of an empty sequence would raise. -/
def initHigh (vecs : List Vec) (i : ℕ) : Option ℚ :=
  (vecs.filterMap (fun x => getComp x i)).max?

/-- Initial non-match-centroid component (kmeans.py lines 85-86). -/
def initLow (vecs : List Vec) (i : ℕ) : Option ℚ :=
  (vecs.filterMap (fun x => getComp x i)).min?

/-- One assignment pass (kmeans.py lines 110-128): each vector is assigned
`True` (match) exactly when it is strictly closer to the high centroid. -/
def kstep (dist : Vec → Vec → ℚ) (high low : Vec)
    (a : List (κ × Vec × Bool)) : List (κ × Vec × Bool) :=
  a.map fun e => (e.1, e.2.1, decide (dist e.2.1 high < dist e.2.1 low))

/-- `n_changed` of one iteration: how many entries flip class. -/
def nChanged (dist : Vec → Vec → ℚ) (high low : Vec)
    (a : List (κ × Vec × Bool)) : ℕ :=
  (a.filter fun e =>
    e.2.2 != decide (dist e.2.1 high < dist e.2.1 low)).length

/-- `high_total[i]` / `low_total[i]` (kmeans.py lines 117-128): the sum of
the non-`None` component-`i` values of the vectors assigned to class
`cls`. -/
def classTotal (cls : Bool) (a : List (κ × Vec × Bool)) (i : ℕ) : ℚ :=
  (a.filterMap fun e =>
    if e.2.2 = cls then getComp e.2.1 i else none).sum

/-- `high_count[i]` / `low_count[i]`. -/
def classCount (cls : Bool) (a : List (κ × Vec × Bool)) (i : ℕ) : ℕ :=
  (a.filterMap fun e =>
    if e.2.2 = cls then getComp e.2.1 i else none).length

/-- The centroid update (kmeans.py lines 130-131): each component is the
`safe_div` of the class total by the class count. -/
def updCentroid (cls : Bool) (vlen : ℕ) (a : List (κ × Vec × Bool)) : Vec :=
  (List.range vlen).map fun i => safeDiv (classTotal cls a i) (classCount cls a i)

/-- The final state of the clustering loop. -/
structure KOut (κ : Type) where
  assigns : List (κ × Vec × Bool)
  high : Vec
  low : Vec
deriving DecidableEq

/-- The `while n_changed > 0 and iters < maxiter` loop (kmeans.py lines
98-135): each iteration reassigns every vector against the current
centroids and then recomputes both centroids from the new assignment —
also in the final, unchanged iteration. -/
def kloop (dist : Vec → Vec → ℚ) (vlen : ℕ) :
    ℕ → Vec → Vec → List (κ × Vec × Bool) → KOut κ
  | 0, h, l, a => ⟨a, h, l⟩
  | fuel + 1, h, l, a =>
      let a' := kstep dist h l a
      let h' := updCentroid true vlen a'
      let l' := updCentroid false vlen a'
      if nChanged dist h l a = 0 then ⟨a', h', l'⟩
      else kloop dist vlen fuel h' l' a'

/-- `classify` up to the end of the clustering loop (kmeans.py lines
71-135): `none` for the empty input (the code returns early), otherwise the
final assignments and centroids, starting from the per-component max/min
initial centroids and the all-`False` initial assignment.  The vector
length is taken from the first entry, as `popitem` does. -/
def classifyFull (dist : Vec → Vec → ℚ) (maxiter : ℕ)
    (comps : List (κ × Vec)) : Option (KOut κ) :=
  match comps with
  | [] => none
  | (_, v) :: _ =>
      let vlen := v.length
      let vecs := comps.map Prod.snd
      let h0 := (List.range vlen).map (initHigh vecs)
      let l0 := (List.range vlen).map (initLow vecs)
      let a0 := comps.map fun e => (e.1, e.2, false)
      some (kloop dist vlen maxiter h0 l0 a0)

/-- The smoothed score (kmeans.py line 139):
`log10((distance(v, low) + 0.1) / (distance(v, high) + 0.1))`. -/
noncomputable def score (dist : Vec → Vec → ℚ) (low high : Vec) (v : Vec) :
    ℝ :=
  Real.logb 10 (((dist v low + 1/10) / (dist v high + 1/10) : ℚ) : ℝ)

/-- The `matches` dict comprehension (kmeans.py line 140). -/
noncomputable def matchScores (dist : Vec → Vec → ℚ) (out : KOut κ) :
    List (κ × ℝ) :=
  out.assigns.filterMap fun e =>
    if e.2.2 then some (e.1, score dist out.low out.high e.2.1) else none

/-- The `nomatches` dict comprehension (kmeans.py line 141). -/
noncomputable def nomatchScores (dist : Vec → Vec → ℚ) (out : KOut κ) :
    List (κ × ℝ) :=
  out.assigns.filterMap fun e =>
    if e.2.2 then none else some (e.1, score dist out.low out.high e.2.1)

/-- A value returned by `classify`: on empty input the code returns the two
Python *sets* `set(), set()`; otherwise two dicts mapping pairs to scores. -/
inductive ClassOut (κ : Type) where
  | emptySet
  | dict (entries : List (κ × ℝ))

/-- `classify(comparisons, distance, maxiter=10)` (kmeans.py lines 33-144). -/
noncomputable def classify (dist : Vec → Vec → ℚ) (maxiter : ℕ)
    (comps : List (κ × Vec)) : ClassOut κ × ClassOut κ :=
  match classifyFull dist maxiter comps with
  | none => (.emptySet, .emptySet)
  | some out => (.dict (matchScores dist out), .dict (nomatchScores dist out))

/-- The component-dropping L1 distance: `Σ |a-b|` over the components where
both vectors are non-`None`.  On vectors with at most one shared non-`None`
component — the only case used below — this coincides with the source's
Euclidean `distance.L2`, since `sqrt(x^2) = |x|`. -/
def absDist (v w : Vec) : ℚ :=
  ((v.zip w).filterMap fun e =>
    match e.1, e.2 with
    | some a, some b => some |a - b|
    | _, _ => none).sum

theorem absDist_nonneg (v w : Vec) : 0 ≤ absDist v w := by
  unfold absDist
  refine List.sum_nonneg ?_
  intro q hq
  rcases List.mem_filterMap.1 hq with ⟨e, _, he⟩
  rcases e with ⟨a | a, b | b⟩ <;> simp at he
  rw [← he]
  exact abs_nonneg _

/-! ### Concrete evaluations of the clustering loop

Rational arithmetic does not reduce in the kernel, so the concrete runs of
`classifyFull` used by the theorems below are evaluated by rewriting, one
loop iteration at a time. -/

theorem kloop_succ (dist : Vec → Vec → ℚ) (vlen n : ℕ) (h l : Vec)
    (a : List (κ × Vec × Bool)) :
    kloop dist vlen (n + 1) h l a =
      if nChanged dist h l a = 0 then
        ⟨kstep dist h l a, updCentroid true vlen (kstep dist h l a),
          updCentroid false vlen (kstep dist h l a)⟩
      else
        kloop dist vlen n (updCentroid true vlen (kstep dist h l a))
          (updCentroid false vlen (kstep dist h l a)) (kstep dist h l a) :=
  rfl

theorem absDist_nil (w : Vec) : absDist [] w = 0 := rfl

theorem absDist_cons_some (a b : ℚ) (v w : Vec) :
    absDist (some a :: v) (some b :: w) = |a - b| + absDist v w := rfl

theorem absDist_cons_none_left (b : Option ℚ) (v w : Vec) :
    absDist (none :: v) (b :: w) = absDist v w := by
  cases b <;> rfl

theorem absDist_cons_none_right (a : Option ℚ) (v w : Vec) :
    absDist (a :: v) (none :: w) = absDist v w := by
  cases a <;> rfl

theorem kstep_single :
    kstep absDist [some (1/2 : ℚ)] [some (1/2)]
        [((0 : ℕ), [some (1/2 : ℚ)], false)] =
      [((0 : ℕ), [some (1/2 : ℚ)], false)] := by
  simp [kstep, absDist, sub_self, abs_zero]

theorem nchanged_single :
    nChanged absDist [some (1/2 : ℚ)] [some (1/2)]
        [((0 : ℕ), [some (1/2 : ℚ)], false)] = 0 := by
  simp [nChanged, absDist, sub_self, abs_zero]

theorem upd_true_single :
    updCentroid true 1 [((0 : ℕ), [some (1/2 : ℚ)], false)] = [none] := by
  simp [updCentroid, classTotal, classCount, safeDiv, getComp,
    List.range_succ, List.range_zero, div_one, Nat.cast_one]

theorem upd_false_single :
    updCentroid false 1 [((0 : ℕ), [some (1/2 : ℚ)], false)] =
      [some (1/2)] := by
  simp [updCentroid, classTotal, classCount, safeDiv, getComp,
    List.range_succ, List.range_zero, div_one, Nat.cast_one]

/-- The run of kmeans.py on `{(1,2): [0.5]}`: the single vector ties with
both initial centroids, is assigned to non-match, and the loop stops after
one iteration with final centroids `[None]` (match) and `[0.5]`
(non-match). -/
theorem classifyFull_single :
    classifyFull absDist 10 [((0 : ℕ), [some (1/2 : ℚ)])] =
      some ⟨[(0, [some (1/2)], false)], [none], [some (1/2)]⟩ := by
  have h0 : classifyFull absDist 10 [((0 : ℕ), [some (1/2 : ℚ)])] =
      some (kloop absDist 1 10 [some (1/2)] [some (1/2)]
        [(0, [some (1/2)], false)]) := by
    simp [classifyFull, initHigh, initLow, getComp, List.range_succ,
      List.range_zero, List.max?, List.min?]
  rw [h0, show (10 : ℕ) = 9 + 1 from rfl, kloop_succ, if_pos nchanged_single,
    kstep_single, upd_true_single, upd_false_single]

theorem kstep_pair0 :
    kstep absDist [some (1 : ℚ)] [some 0]
        [((0 : ℕ), [some (0 : ℚ)], false), (1, [some 1], false)] =
      [((0 : ℕ), [some (0 : ℚ)], false), (1, [some 1], true)] := by
  norm_num [kstep, absDist_cons_some, absDist_nil, sub_self, abs_zero,
    zero_sub, abs_neg, abs_one, sub_zero]

theorem kstep_pair1 :
    kstep absDist [some (1 : ℚ)] [some 0]
        [((0 : ℕ), [some (0 : ℚ)], false), (1, [some 1], true)] =
      [((0 : ℕ), [some (0 : ℚ)], false), (1, [some 1], true)] := by
  norm_num [kstep, absDist_cons_some, absDist_nil, sub_self, abs_zero,
    zero_sub, abs_neg, abs_one, sub_zero]

theorem nchanged_pair0 :
    ¬ (nChanged absDist [some (1 : ℚ)] [some 0]
        [((0 : ℕ), [some (0 : ℚ)], false), (1, [some 1], false)] = 0) := by
  norm_num [nChanged, absDist_cons_some, absDist_nil, sub_self, abs_zero,
    zero_sub, abs_neg, abs_one, sub_zero]

theorem nchanged_pair1 :
    nChanged absDist [some (1 : ℚ)] [some 0]
        [((0 : ℕ), [some (0 : ℚ)], false), (1, [some 1], true)] = 0 := by
  norm_num [nChanged, absDist_cons_some, absDist_nil, sub_self, abs_zero,
    zero_sub, abs_neg, abs_one, sub_zero]

theorem upd_true_pair :
    updCentroid true 1
        [((0 : ℕ), [some (0 : ℚ)], false), (1, [some 1], true)] =
      [some 1] := by
  simp only [updCentroid, classTotal, classCount, getComp, List.range_succ,
    List.range_zero, List.map_nil, List.nil_append, List.map_cons,
    List.filterMap_cons]
  norm_num [safeDiv]

theorem upd_false_pair :
    updCentroid false 1
        [((0 : ℕ), [some (0 : ℚ)], false), (1, [some 1], true)] =
      [some 0] := by
  simp only [updCentroid, classTotal, classCount, getComp, List.range_succ,
    List.range_zero, List.map_nil, List.nil_append, List.map_cons,
    List.filterMap_cons]
  norm_num [safeDiv]

/-- The run of kmeans.py on `{(1,2): [0.0], (2,3): [1.0]}`: the `[1.0]`
vector joins the match cluster in the first iteration, the second iteration
changes nothing, and the fixed point is reached with centroids `[1.0]` and
`[0.0]`. -/
theorem classifyFull_pair :
    classifyFull absDist 10 [((0 : ℕ), [some (0 : ℚ)]), (1, [some 1])] =
      some ⟨[(0, [some 0], false), (1, [some 1], true)],
        [some 1], [some 0]⟩ := by
  have h0 : classifyFull absDist 10
      [((0 : ℕ), [some (0 : ℚ)]), (1, [some 1])] =
      some (kloop absDist 1 10 [some 1] [some 0]
        [(0, [some 0], false), (1, [some 1], false)]) := by
    simp only [classifyFull, initHigh, initLow, getComp, List.range_succ,
      List.range_zero, List.map_nil, List.nil_append, List.map_cons,
      List.filterMap_cons, List.filterMap_nil, List.length_cons,
      List.length_nil]
    norm_num [List.max?, List.min?, max_def, min_def]
  rw [h0, show (10 : ℕ) = 9 + 1 from rfl, kloop_succ, if_neg nchanged_pair0,
    kstep_pair0, upd_true_pair, upd_false_pair,
    show (9 : ℕ) = 8 + 1 from rfl, kloop_succ, if_pos nchanged_pair1,
    kstep_pair1, upd_true_pair, upd_false_pair]

/-- Claim C5 evaluated at the failing input: on an empty `comparisons`
mapping, `classify` returns two empty Python sets, not two empty mappings
as the claim (and the function's own docstring, which promises "two
mappings") states. -/
theorem c5_empty_returns_sets :
    classify absDist 10 ([] : List (ℕ × Vec)) =
        (ClassOut.emptySet, ClassOut.emptySet) ∧
      (ClassOut.emptySet : ClassOut ℕ) ≠ ClassOut.dict [] :=
  ⟨rfl, fun h => ClassOut.noConfusion h⟩

/-- Claim C3, as stated, is false: on the single-vector input
`{(1,2): [0.5]}` the clustering stabilises immediately (the vector ties
with both centroids and is assigned to non-match), the final high centroid
degenerates to `[None]` and the final low centroid is `[0.5]`, so the
non-match pair's score is `log10((0+0.1)/(0+0.1)) = 0` — not strictly
negative. -/
theorem c3_counterexample :
    (classify absDist 10 [((0 : ℕ), [some (1/2 : ℚ)])]).2 =
        ClassOut.dict [(0, (0 : ℝ))] ∧ ¬ ((0 : ℝ) < 0) := by
  constructor
  · have h := classifyFull_single
    have h3 : score absDist [some (1/2 : ℚ)] [none] [some (1/2)] = 0 := by
      unfold score
      have h4 : ((absDist [some (1/2 : ℚ)] [some (1/2)] + 1/10) /
          (absDist [some (1/2 : ℚ)] [none] + 1/10) : ℚ) = 1 := by
        norm_num [absDist_cons_some, absDist_cons_none_right, absDist_nil,
          sub_self, abs_zero]
      rw [h4, Rat.cast_one, Real.logb_one]
    unfold classify
    rw [h]
    show ClassOut.dict (nomatchScores absDist
      ⟨[(0, [some (1/2)], false)], [none], [some (1/2)]⟩) = _
    have h2 : nomatchScores absDist
        (⟨[(0, [some (1/2)], false)], [none], [some (1/2)]⟩ : KOut ℕ) =
        [(0, score absDist [some (1/2)] [none] [some (1/2)])] := rfl
    rw [h2, h3]
  · exact lt_irrefl 0

theorem map_eq_self_forall (l : List α) (f : α → α) (h : l.map f = l) :
    ∀ e ∈ l, f e = e := by
  induction l with
  | nil => simp
  | cons a t ih =>
      simp only [List.map_cons, List.cons.injEq] at h
      intro e he
      rcases List.mem_cons.1 he with rfl | he
      · exact h.1
      · exact ih h.2 e he

/-- Claim C3, amended: every classified vector `v` receives the score
`log10((distance(v, low_centroid)+0.1) / (distance(v, high_centroid)+0.1))`;
provided the distance function is nonnegative and the returned assignments
are stable under the returned centroids (which holds whenever the loop
reaches its assignment fixed point after the first iteration, since the
final centroid update then reproduces the centroids used for the final
assignment), the score is strictly positive for every pair placed in
matches, and non-positive — zero exactly for vectors equidistant from the
two final centroids — rather than strictly negative for every pair placed
in non-matches. -/
theorem c3_amended (κ : Type) (dist : Vec → Vec → ℚ) (maxiter : ℕ)
    (comps : List (κ × Vec)) (out : KOut κ)
    (hd : ∀ v w, 0 ≤ dist v w)
    (hout : classifyFull dist maxiter comps = some out)
    (hstable : kstep dist out.high out.low out.assigns = out.assigns) :
    classify dist maxiter comps =
        (ClassOut.dict (matchScores dist out),
          ClassOut.dict (nomatchScores dist out)) ∧
      (∀ e ∈ out.assigns, e.2.2 = true →
        (e.1, score dist out.low out.high e.2.1) ∈ matchScores dist out ∧
          0 < score dist out.low out.high e.2.1) ∧
      (∀ e ∈ out.assigns, e.2.2 = false →
        (e.1, score dist out.low out.high e.2.1) ∈ nomatchScores dist out ∧
          score dist out.low out.high e.2.1 ≤ 0) := by
  have hpt : ∀ e ∈ out.assigns,
      e.2.2 = decide (dist e.2.1 out.high < dist e.2.1 out.low) := by
    intro e he
    have h := map_eq_self_forall out.assigns _ hstable e he
    have h1 := congrArg (fun x => x.2.2) h
    simpa using h1.symm
  have hb : (1 : ℝ) < 10 := by norm_num
  have hdenpos : ∀ v : Vec, (0 : ℚ) < dist v out.high + 1/10 := by
    intro v
    have := hd v out.high
    linarith
  refine ⟨?_, ?_, ?_⟩
  · unfold classify
    rw [hout]
  · intro e he htrue
    constructor
    · unfold matchScores
      refine List.mem_filterMap.2 ⟨e, he, ?_⟩
      rw [htrue, if_pos rfl]
    · have h := hpt e he
      rw [htrue] at h
      have hlt : dist e.2.1 out.high < dist e.2.1 out.low :=
        of_decide_eq_true h.symm
      unfold score
      refine Real.logb_pos hb ?_
      have hq : (1 : ℚ) <
          (dist e.2.1 out.low + 1/10) / (dist e.2.1 out.high + 1/10) := by
        rw [lt_div_iff₀ (hdenpos e.2.1)]
        linarith
      exact_mod_cast hq
  · intro e he hfalse
    constructor
    · unfold nomatchScores
      refine List.mem_filterMap.2 ⟨e, he, ?_⟩
      rw [hfalse]
      simp
    · have h := hpt e he
      rw [hfalse] at h
      have hge : ¬ (dist e.2.1 out.high < dist e.2.1 out.low) :=
        of_decide_eq_false h.symm
      unfold score
      refine Real.logb_nonpos hb ?_ ?_
      · have hq : (0 : ℚ) ≤
            (dist e.2.1 out.low + 1/10) / (dist e.2.1 out.high + 1/10) := by
          have := hd e.2.1 out.low
          have := hdenpos e.2.1
          positivity
        exact_mod_cast hq
      · have hq : (dist e.2.1 out.low + 1/10) /
            (dist e.2.1 out.high + 1/10) ≤ 1 := by
          rw [div_le_one (hdenpos e.2.1)]
          linarith [not_lt.1 hge]
        exact_mod_cast hq

theorem c3_amended_witness :
    0 < score absDist [some (0 : ℚ)] [some 1] [some 1] := by
  have h := c3_amended ℕ absDist 10 [(0, [some 0]), (1, [some 1])]
    ⟨[(0, [some 0], false), (1, [some 1], true)], [some 1], [some 0]⟩
    absDist_nonneg classifyFull_pair kstep_pair1
  exact (h.2.1 (1, [some 1], true) (by simp) rfl).2

/-! ## Match grouping (recordgroups.py) — claim C9

Records are any linearly ordered type; the adjacency `defaultdict(list)` is
an insertion-ordered association list. -/

variable {α : Type} [LinearOrder α]

/-- `neighbours[node].append(x)` on a `defaultdict(list)`: extend the
existing bucket, or add the key at the end with a one-element bucket. -/
def adjAppend (adj : List (α × List α)) (k x : α) : List (α × List α) :=
  match adj with
  | [] => [(k, [x])]
  | (k', ns) :: rest =>
      if k' = k then (k', ns ++ [x]) :: rest
      else (k', ns) :: adjAppend rest k x

/-- `adjacency_list(nodepairs)` (recordgroups.py lines 15-35): each pair is
inserted in both directions. -/
def adjacency_list (nodepairs : List (α × α)) : List (α × List α) :=
  nodepairs.foldl (fun adj p => adjAppend (adjAppend adj p.1 p.2) p.2 p.1) []

/-- Dictionary lookup on the adjacency list. -/
def alookup (adj : List (α × List α)) (k : α) : Option (List α) :=
  match adj with
  | [] => none
  | (k', ns) :: rest => if k' = k then some ns else alookup rest k

/-- All nodes mentioned by the adjacency list (keys and neighbours);
in `adjacency_list` output every neighbour is also a key. -/
def adjNodes (adj : List (α × List α)) : List α :=
  adj.flatMap fun e => e.1 :: e.2

theorem alookup_none_of_not_mem_adjNodes (adj : List (α × List α)) (k : α)
    (h : k ∉ adjNodes adj) : alookup adj k = none := by
  induction adj with
  | nil => rfl
  | cons e rest ih =>
      obtain ⟨k', ns⟩ := e
      simp only [adjNodes, List.flatMap_cons, List.mem_append,
        List.mem_cons] at h
      push_neg at h
      simp only [alookup, if_neg h.1.1.symm]
      exact ih (by simpa [adjNodes] using h.2)

/-- The `while len(queue) > 0` breadth-first loop of `components`
(recordgroups.py lines 56-62): pop the queue head; an already-visited node
is dropped; a fresh node is appended to the group, marked visited, and its
neighbours are appended to the queue.  Returns the group and the final
visited set.  (`adjlist[node]` is a `defaultdict` access; in BFS every
queued node is a key, so it is the plain lookup.) -/
def bfs (adj : List (α × List α)) :
    List α → List α → List α → List α × List α
  | [], visited, group => (group, visited)
  | node :: rest, visited, group =>
      if node ∈ visited then bfs adj rest visited group
      else
        bfs adj (rest ++ (alookup adj node).getD [])
          (node :: visited) (group ++ [node])
termination_by queue visited _ =>
  (((adjNodes adj).toFinset.filter (fun x => x ∉ visited)).card, queue.length)
decreasing_by
  · exact Prod.Lex.right _ (Nat.lt_succ_self _)
  · by_cases hu : node ∈ (adjNodes adj).toFinset
    · apply Prod.Lex.left
      apply Finset.card_lt_card
      constructor
      · intro x hx
        simp only [Finset.mem_filter, List.mem_cons] at hx ⊢
        exact ⟨hx.1, fun hc => hx.2 (Or.inr hc)⟩
      · intro hsub
        have hn := hsub (Finset.mem_filter.2 ⟨hu, by assumption⟩)
        simp at hn
    · have hl : alookup adj node = none :=
        alookup_none_of_not_mem_adjNodes adj node (by
          simpa using hu)
      have hcard : ((adjNodes adj).toFinset.filter
          (fun x => x ∉ node :: visited)).card =
          ((adjNodes adj).toFinset.filter (fun x => x ∉ visited)).card := by
        congr 1
        apply Finset.filter_congr
        intro x hx
        simp only [List.mem_cons, eq_iff_iff]
        constructor
        · intro h hc
          exact h (Or.inr hc)
        · intro h hc
          rcases hc with rfl | hc
          · exact hu hx
          · exact h hc
      rw [hcard, hl]
      exact Prod.Lex.right _ (by simp)

/-- The `for node in adjlist.iterkeys()` loop of `components`
(recordgroups.py lines 53-64): start a BFS at every unvisited key, sort the
resulting group, and carry the visited set forward. -/
def componentsGo (adj : List (α × List α)) :
    List α → List α → List (List α)
  | [], _ => []
  | k :: ks, visited =>
      if k ∈ visited then componentsGo adj ks visited
      else
        (bfs adj [k] visited []).1.insertionSort (· ≤ ·) ::
          componentsGo adj ks (bfs adj [k] visited []).2

/-- `components(adjlist)` (recordgroups.py lines 37-66). -/
def components (adj : List (α × List α)) : List (List α) :=
  componentsGo adj (adj.map Prod.fst) []

/-- `singles_and_groups(matches, allrecords)` (recordgroups.py lines
68-86): `singles` are the records that are not keys of the adjacency list,
`groups` the BFS components. -/
def singles_and_groups (pairs : List (α × α)) (allrecords : List α) :
    List α × List (List α) :=
  (allrecords.filter fun r => (alookup (adjacency_list pairs) r).isNone,
    components (adjacency_list pairs))

/-! ### Properties of the adjacency list -/

theorem alookup_adjAppend (adj : List (α × List α)) (a x k : α) :
    alookup (adjAppend adj a x) k =
      if k = a then some ((alookup adj k).getD [] ++ [x])
      else alookup adj k := by
  induction adj with
  | nil =>
      simp only [adjAppend, alookup]
      by_cases h : a = k
      · subst h
        simp [alookup]
      · rw [if_neg h, if_neg (fun hc => h hc.symm)]
  | cons e rest ih =>
      obtain ⟨k', ns⟩ := e
      simp only [adjAppend]
      by_cases h1 : k' = a
      · subst h1
        simp only [alookup]
        by_cases h2 : k' = k
        · subst h2
          simp [alookup]
        · rw [if_neg h2, if_neg h2, if_neg (fun hc : k = k' => h2 hc.symm)]
      · simp only [if_neg h1, alookup]
        by_cases h2 : k' = k
        · subst h2
          rw [if_pos rfl, if_pos rfl, if_neg (fun hc : k' = a => h1 hc)]
        · rw [if_neg h2, if_neg h2, ih]

/-- A record is a key of `adjacency_list pairs` exactly when it appears in
some pair. -/
theorem alookup_adjacency_isSome (pairs : List (α × α)) (r : α) :
    (alookup (adjacency_list pairs) r).isSome ↔
      ∃ p ∈ pairs, r = p.1 ∨ r = p.2 := by
  have main : ∀ (ps : List (α × α)) (acc : List (α × List α)),
      (alookup (ps.foldl
          (fun adj p => adjAppend (adjAppend adj p.1 p.2) p.2 p.1) acc)
        r).isSome ↔
        (alookup acc r).isSome ∨ ∃ p ∈ ps, r = p.1 ∨ r = p.2 := by
    intro ps
    induction ps with
    | nil => simp
    | cons p pt ih =>
        intro acc
        rw [List.foldl_cons, ih]
        rw [alookup_adjAppend, alookup_adjAppend]
        constructor
        · rintro (h | h)
          · by_cases h1 : r = p.2
            · exact Or.inr ⟨p, List.mem_cons_self _ _, Or.inr h1⟩
            · rw [if_neg h1] at h
              by_cases h2 : r = p.1
              · exact Or.inr ⟨p, List.mem_cons_self _ _, Or.inl h2⟩
              · rw [if_neg h2] at h
                exact Or.inl h
          · obtain ⟨q, hq, hr⟩ := h
            exact Or.inr ⟨q, List.mem_cons_of_mem _ hq, hr⟩
        · rintro (h | ⟨q, hq, hr⟩)
          · left
            by_cases h1 : r = p.2
            · rw [if_pos h1]; rfl
            · rw [if_neg h1]
              by_cases h2 : r = p.1
              · rw [if_pos h2]; rfl
              · rw [if_neg h2]; exact h
          · rcases List.mem_cons.1 hq with rfl | hq
            · left
              by_cases h1 : r = q.2
              · rw [if_pos h1]; rfl
              · rw [if_neg h1]
                rcases hr with hr | hr
                · rw [if_pos hr]; rfl
                · exact absurd hr h1
            · exact Or.inr ⟨q, hq, hr⟩
  rw [adjacency_list, main pairs []]
  simp [alookup]

/-- Every neighbour list of `adjacency_list pairs` records only edges of
`pairs` (in one direction or the other). -/
theorem adjacency_edges (pairs : List (α × α)) (k : α) (ns : List α)
    (hk : alookup (adjacency_list pairs) k = some ns) :
    ∀ n ∈ ns, (k, n) ∈ pairs ∨ (n, k) ∈ pairs := by
  have main : ∀ (ps : List (α × α)) (S : List (α × α))
      (acc : List (α × List α)),
      (∀ k' ns', alookup acc k' = some ns' →
        ∀ n ∈ ns', (k', n) ∈ S ∨ (n, k') ∈ S) →
      (∀ p ∈ ps, p ∈ S) →
      ∀ k' ns', alookup (ps.foldl
          (fun adj p => adjAppend (adjAppend adj p.1 p.2) p.2 p.1) acc)
        k' = some ns' →
        ∀ n ∈ ns', (k', n) ∈ S ∨ (n, k') ∈ S := by
    intro ps
    induction ps with
    | nil => intro S acc hacc _; exact hacc
    | cons p pt ih =>
        intro S acc hacc hps
        rw [List.foldl_cons]
        refine ih S _ ?_ (fun q hq => hps q (List.mem_cons_of_mem _ hq))
        intro k' ns' hl n hn
        rw [alookup_adjAppend] at hl
        by_cases h1 : k' = p.2
        · rw [if_pos h1] at hl
          obtain rfl := Option.some_injective _ hl.symm
          rcases List.mem_append.1 hn with hn | hn
          · rw [alookup_adjAppend] at hn
            by_cases h2 : k' = p.1
            · rw [if_pos h2] at hn
              simp only [Option.getD_some] at hn
              rcases List.mem_append.1 hn with hn | hn
              · rcases ho : alookup acc k' with _ | ns₀
                · rw [ho] at hn; simp at hn
                · rw [ho] at hn
                  exact hacc k' ns₀ ho n hn
              · rcases List.mem_singleton.1 hn with rfl
                subst h2
                exact Or.inl (hps p (List.mem_cons_self _ _))
            · rw [if_neg h2] at hn
              rcases ho : alookup acc k' with _ | ns₀
              · rw [ho] at hn; simp at hn
              · rw [ho] at hn
                exact hacc k' ns₀ ho n hn
          · rcases List.mem_singleton.1 hn with rfl
            subst h1
            exact Or.inr (hps p (List.mem_cons_self _ _))
        · rw [if_neg h1, alookup_adjAppend] at hl
          by_cases h2 : k' = p.1
          · rw [if_pos h2] at hl
            obtain rfl := Option.some_injective _ hl.symm
            rcases List.mem_append.1 hn with hn | hn
            · rcases ho : alookup acc k' with _ | ns₀
              · rw [ho] at hn; simp at hn
              · rw [ho] at hn
                exact hacc k' ns₀ ho n hn
            · rcases List.mem_singleton.1 hn with rfl
              subst h2
              exact Or.inl (hps p (List.mem_cons_self _ _))
          · rw [if_neg h2] at hl
            exact hacc k' ns' hl n hn
  intro n hn
  refine main pairs pairs [] ?_ (fun q hq => hq) k ns hk n hn
  intro k' ns' h
  simp [alookup] at h

/-! ### BFS groups are connected -/

/-- One undirected match edge: the pair appears in the match list in either
orientation. -/
def edgeRel (pairs : List (α × α)) (a b : α) : Prop :=
  (a, b) ∈ pairs ∨ (b, a) ∈ pairs

theorem edgeRel_symm (pairs : List (α × α)) : Symmetric (edgeRel pairs) :=
  fun _ _ h => h.symm

theorem bfs_group_reach (pairs : List (α × α)) (adj : List (α × List α))
    (hadj : ∀ k ns, alookup adj k = some ns →
      ∀ n ∈ ns, (k, n) ∈ pairs ∨ (n, k) ∈ pairs)
    (root : α) (queue visited group : List α)
    (hq : ∀ x ∈ queue, Relation.ReflTransGen (edgeRel pairs) root x)
    (hg : ∀ x ∈ group, Relation.ReflTransGen (edgeRel pairs) root x) :
    ∀ x ∈ (bfs adj queue visited group).1,
      Relation.ReflTransGen (edgeRel pairs) root x := by
  induction queue, visited, group using bfs.induct adj with
  | case1 visited group =>
      rw [bfs]
      exact hg
  | case2 node rest visited group hv ih =>
      rw [bfs, if_pos hv]
      exact ih (fun x hx => hq x (List.mem_cons_of_mem _ hx)) hg
  | case3 node rest visited group hv ih =>
      rw [bfs, if_neg hv]
      refine ih ?_ ?_
      · intro x hx
        rcases List.mem_append.1 hx with hx | hx
        · exact hq x (List.mem_cons_of_mem _ hx)
        · have hroot := hq node (List.mem_cons_self _ _)
          rcases ho : alookup adj node with _ | ns
          · rw [ho] at hx
            simp at hx
          · rw [ho] at hx
            simp only [Option.getD_some] at hx
            exact hroot.tail (hadj node ns ho x hx)
      · intro x hx
        rcases List.mem_append.1 hx with hx | hx
        · exact hg x hx
        · rcases List.mem_singleton.1 hx with rfl
          exact hq x (List.mem_cons_self _ _)

theorem componentsGo_props (pairs : List (α × α)) (adj : List (α × List α))
    (hadj : ∀ k ns, alookup adj k = some ns →
      ∀ n ∈ ns, (k, n) ∈ pairs ∨ (n, k) ∈ pairs) :
    ∀ (ks visited : List α), ∀ g ∈ componentsGo adj ks visited,
      List.Sorted (· ≤ ·) g ∧
        ∀ a ∈ g, ∀ b ∈ g, Relation.ReflTransGen (edgeRel pairs) a b := by
  intro ks
  induction ks with
  | nil =>
      intro visited g hg
      simp [componentsGo] at hg
  | cons k kt ih =>
      intro visited g hg
      simp only [componentsGo] at hg
      by_cases hv : k ∈ visited
      · rw [if_pos hv] at hg
        exact ih visited g hg
      · rw [if_neg hv] at hg
        rcases List.mem_cons.1 hg with rfl | hg
        · constructor
          · exact List.sorted_insertionSort _ _
          · intro a ha b hb
            rw [List.mem_insertionSort] at ha hb
            have hr := bfs_group_reach pairs adj hadj k [k] visited []
              (by
                intro x hx
                rcases List.mem_singleton.1 hx with rfl
                exact Relation.ReflTransGen.refl)
              (by simp)
            exact Relation.ReflTransGen.trans
              ((Relation.ReflTransGen.symmetric (edgeRel_symm pairs))
                (hr a ha)) (hr b hb)
        · exact ih _ g hg

/-- Claim C9: for a match list closed under symmetry,
`singles_and_groups(matches, allrecords)` returns as singles exactly the
records of `allrecords` that appear in no match pair, and groups in which
any two members are joined by a path of match edges, each group sorted in
the records' natural order. -/
theorem c9_grouping (M : List (α × α)) (allrecords : List α)
    (hsym : ∀ p ∈ M, (p.2, p.1) ∈ M) :
    (∀ r, r ∈ (singles_and_groups M allrecords).1 ↔
      r ∈ allrecords ∧ ¬ ∃ p ∈ M, r = p.1 ∨ r = p.2) ∧
      (∀ g ∈ (singles_and_groups M allrecords).2,
        List.Sorted (· ≤ ·) g ∧
          ∀ a ∈ g, ∀ b ∈ g,
            Relation.ReflTransGen (fun x y => (x, y) ∈ M) a b) := by
  constructor
  · intro r
    simp only [singles_and_groups, List.mem_filter]
    rw [← alookup_adjacency_isSome M r]
    constructor
    · rintro ⟨h1, h2⟩
      refine ⟨h1, ?_⟩
      intro hc
      rw [Option.isNone_iff_eq_none] at h2
      rw [h2] at hc
      simp at hc
    · rintro ⟨h1, h2⟩
      refine ⟨h1, ?_⟩
      rcases ho : alookup (adjacency_list M) r with _ | ns
      · rfl
      · exact absurd (by rw [ho]; rfl) h2
  · intro g hg
    simp only [singles_and_groups, components] at hg
    obtain ⟨hsort, hreach⟩ := componentsGo_props M (adjacency_list M)
      (adjacency_edges M) ((adjacency_list M).map Prod.fst) [] g hg
    refine ⟨hsort, ?_⟩
    intro a ha b hb
    refine Relation.ReflTransGen.mono ?_ (hreach a ha b hb)
    intro x y hxy
    rcases hxy with h | h
    · exact h
    · exact hsym (y, x) h

theorem c9_grouping_witness :
    (3 : ℕ) ∈ (singles_and_groups [((1 : ℕ), 2), (2, 1)] [1, 2, 3]).1 := by
  have h := c9_grouping [((1 : ℕ), 2), (2, 1)] [1, 2, 3] (by decide)
  exact (h.1 3).2 (by decide)

end Pydedupe
